import Mathlib

set_option maxHeartbeats 1000000

/-!
Verification development for the JAX investment-model dynamic-programming
solver (`investment_jax.py`).  The state space is a product of an endogenous
grid (size `ys`) and an exogenous Markov grid (size `zs`).  Machine floats are
modelled by exact rationals; JAX array operations are modelled pointwise over
`Fin`-indexed functions.
-/

namespace InvestmentJax

open scoped Matrix

/-- A value function: a real-valued array of shape `stateSize × exoSize`. -/
abbrev Value (ys zs : ℕ) : Type := Fin ys → Fin zs → ℚ

/-- A policy: an integer array of shape `stateSize × exoSize` whose entries are
next-state indices (the `Fin ys` codomain records that each entry lies in
`[0, stateSize)`). -/
abbrev Policy (ys zs : ℕ) : Type := Fin ys → Fin zs → Fin ys

/-- The model bundle unpacked by every function of the source:
`constants = (β, a_0, a_1, γ, c)`, `sizes = (y_size, z_size)` (the two `Fin`
parameters), and `arrays = (y_grid, z_grid, Q)`. -/
structure Model (ys zs : ℕ) where
  β : ℚ
  a_0 : ℚ
  a_1 : ℚ
  γ : ℚ
  c : ℚ
  y_grid : Fin ys → ℚ
  z_grid : Fin zs → ℚ
  Q : Fin zs → Fin zs → ℚ

variable {ys zs : ℕ}

/-- The Bellman backup `B(v)[i, j, k]`: the source broadcasts
`R = (a_0 - a_1*y + z - c)*y - γ*(yp - y)**2` over `(i, j, ip)` and adds
`β * Σ_jp v[ip, jp] * Q[j, jp]` (the sum over the last axis of `v * Q`). -/
def B (v : Value ys zs) (m : Model ys zs) (i : Fin ys) (j : Fin zs) (k : Fin ys) : ℚ :=
  (m.a_0 - m.a_1 * m.y_grid i + m.z_grid j - m.c) * m.y_grid i
    - m.γ * (m.y_grid k - m.y_grid i) ^ 2
    + m.β * ∑ jp, v k jp * m.Q j jp

/-- The Bellman operator: `jnp.max` of the backup along the action axis. -/
def T [NeZero ys] (v : Value ys zs) (m : Model ys zs) : Value ys zs :=
  fun i j => Finset.univ.sup' ⟨0, Finset.mem_univ 0⟩ fun k => B v m i j k

/-- The semantics of `jnp.argmax` along an axis: NumPy/JAX return the index of
the first occurrence of the maximum value, equivalently the least index whose
value dominates every other value. -/
def argmaxF {n : ℕ} [NeZero n] (f : Fin n → ℚ) : Fin n :=
  (Finset.univ.filter fun k => ∀ kp, f kp ≤ f k).min' (by
    obtain ⟨b, _, hb⟩ := Finset.exists_max_image Finset.univ f ⟨0, Finset.mem_univ 0⟩
    exact ⟨b, Finset.mem_filter.mpr ⟨Finset.mem_univ b, fun kp => hb kp (Finset.mem_univ kp)⟩⟩)

/-- The greedy extractor: `jnp.argmax` of the backup along the action axis. -/
def get_greedy [NeZero ys] (v : Value ys zs) (m : Model ys zs) : Policy ys zs :=
  fun i j => argmaxF fun k => B v m i j k

/-- The fixed-policy reward matrix `r_σ[i, j]` computed (identically) by
`T_σ`, `T_σ_2`, `get_value` and `get_value_2`: the reward at action
`yp = y_grid[σ[i, j]]`. -/
def r_σ (σ : Policy ys zs) (m : Model ys zs) : Value ys zs :=
  fun i j =>
    (m.a_0 - m.a_1 * m.y_grid i + m.z_grid j - m.c) * m.y_grid i
      - m.γ * (m.y_grid (σ i j) - m.y_grid i) ^ 2

/-- The dense policy transition matrix of `T_σ` and `get_value`:
`A[i, j, k] = 1{σ[i, j] = k}` (the `jnp.where` indicator) multiplied by the
broadcast kernel `Q[j, jp]`, then reshaped to an `n × n` matrix over the
row-major flattened joint state (modelled by the product index
`Fin ys × Fin zs`). -/
def P_σ (σ : Policy ys zs) (m : Model ys zs) :
    Matrix (Fin ys × Fin zs) (Fin ys × Fin zs) ℚ :=
  fun p q => (if σ p.1 p.2 = q.1 then (1 : ℚ) else 0) * m.Q p.2 q.2

/-- Row-major flattening of a value function to a vector over the joint state,
as performed by `jnp.reshape(v, n)`. -/
def toVec (v : Value ys zs) : Fin ys × Fin zs → ℚ := fun p => v p.1 p.2

/-- The dense σ-policy operator: `r_σ + β * P_σ @ v` on the flattened joint
state, reshaped back to `stateSize × exoSize`. -/
def T_σ (v : Value ys zs) (σ : Policy ys zs) (m : Model ys zs) : Value ys zs :=
  fun i j => r_σ σ m i j + m.β * (P_σ σ m *ᵥ toVec v) (i, j)

/-- The matrix-free σ-policy operator: gather `V[i, j, jp] = v[σ[i, j], jp]`
and return `r_σ + β * Σ_jp V[i, j, jp] * Q[j, jp]`. -/
def T_σ_2 (v : Value ys zs) (σ : Policy ys zs) (m : Model ys zs) : Value ys zs :=
  fun i j => r_σ σ m i j + m.β * ∑ jp, v (σ i j) jp * m.Q j jp

/-- The implicit linear operator of the matrix-free policy evaluation:
`A(v) = v - β * Σ_jp v[σ[i, j], jp] * Q[j, jp]`. -/
def A (v : Value ys zs) (σ : Policy ys zs) (m : Model ys zs) : Value ys zs :=
  fun i j => v i j - m.β * ∑ jp, v (σ i j) jp * m.Q j jp

/-- The coefficient matrix of the direct policy-evaluation solve:
`np.identity(n) - β * P_σ` on the flattened joint state. -/
def mat_A (σ : Policy ys zs) (m : Model ys zs) :
    Matrix (Fin ys × Fin zs) (Fin ys × Fin zs) ℚ :=
  1 - m.β • P_σ σ m

/-- Exact-arithmetic model of the dense linear solve `jnp.linalg.solve M b`:
the solution of `M x = b` written in Cramer form
`x = det(M)⁻¹ • (adjugate M *ᵥ b)` (which indeed solves the system whenever
`det M ≠ 0`). -/
def cramerSolve {ι : Type} [Fintype ι] [DecidableEq ι]
    (M : Matrix ι ι ℚ) (b : ι → ℚ) : ι → ℚ :=
  (M.det)⁻¹ • (M.adjugate *ᵥ b)

/-- The direct policy evaluator: solve `(I - β P_σ) v_σ = r_σ` on the
flattened joint state and reshape back. -/
def get_value (σ : Policy ys zs) (m : Model ys zs) : Value ys zs :=
  fun i j => cramerSolve (mat_A σ m) (toVec (r_σ σ m)) (i, j)

/-- The sup norm over all entries of a value function (`jnp.max(jnp.abs(·))`),
used by every convergence test of the source. -/
def supNorm [NeZero ys] [NeZero zs] (v : Value ys zs) : ℚ :=
  Finset.univ.sup' ⟨(0, 0), Finset.mem_univ (0, 0)⟩ fun p : Fin ys × Fin zs => |v p.1 p.2|

/-- The inner product of two value functions over all entries, used by the
Krylov recurrences. -/
def dotV (u v : Value ys zs) : ℚ :=
  ∑ p : Fin ys × Fin zs, u p.1 p.2 * v p.1 p.2

/-- Modelled from the spec: the stabilized biconjugate-gradient (BiCGStab)
recursion of the external Krylov back end `jax.scipy.sparse.linalg.bicgstab`,
whose code is not under `src/`.  The state carries the current iterate `x`,
the residual `r`, the search direction `p`, the direction image `v`, and the
scalars `ρ`, `α`, `ω` (all initialized per the standard preconditioner-free
scheme); each step computes
`ρ' = ⟨r̂, r⟩`, `β = (ρ'/ρ)(α/ω)`, `p' = r + β(p - ω v)`, `v' = A p'`,
`α' = ρ'/⟨r̂, v'⟩`, `s = r - α' v'`, `t = A s`, `ω' = ⟨t, s⟩/⟨t, t⟩`,
`x' = x + α' p' + ω' s`, `r' = s - ω' t`.  The loop stops when the sup-norm
residual is within `tol` or when the iteration cap (the fuel) is exhausted,
returning the last iterate either way. -/
def bicgstabLoop [NeZero ys] [NeZero zs] (Amap : Value ys zs → Value ys zs)
    (rhat : Value ys zs) (tol : ℚ) :
    ℕ → Value ys zs → Value ys zs → Value ys zs → Value ys zs → ℚ → ℚ → ℚ →
      Value ys zs
  | 0, x, _, _, _, _, _, _ => x
  | fuel + 1, x, r, p, v, ρ, α, ω =>
    if supNorm r ≤ tol then x
    else
      let ρn := dotV rhat r
      let βn := ρn / ρ * (α / ω)
      let pn := r + βn • (p - ω • v)
      let vn := Amap pn
      let αn := ρn / dotV rhat vn
      let s := r - αn • vn
      let t := Amap s
      let ωn := dotV t s / dotV t t
      bicgstabLoop Amap rhat tol fuel (x + αn • pn + ωn • s) (s - ωn • t) pn vn ρn αn ωn

/-- Modelled from the spec: the external back end's entry point.  The shadow
residual `r̂` is the initial residual `b - A x₀`, the directions start at zero
and the scalars at one; the interface returns a pair `(solution, info)` and
provides no convergence information (the `info` component is never
populated). -/
def bicgstab [NeZero ys] [NeZero zs] (Amap : Value ys zs → Value ys zs)
    (b : Value ys zs) (tol : ℚ) (fuel : ℕ) (x0 : Value ys zs) :
    Value ys zs × Option Bool :=
  (bicgstabLoop Amap (b - Amap x0) tol fuel x0 (b - Amap x0) 0 0 1 1 1, none)

/-- The full solver call made by `get_value_2`: the implicit operator is
`A(·, σ, model)`, the right-hand side is `r_σ`, the tolerance is the back
end's default `1e-5`, the cap is the back end's default of ten times the
joint-state size, and the initial iterate defaults to zero. -/
def get_value_2_full [NeZero ys] [NeZero zs] (σ : Policy ys zs) (m : Model ys zs) :
    Value ys zs × Option Bool :=
  bicgstab (fun v => A v σ m) (r_σ σ m) (1 / 100000) (10 * (ys * zs)) (fun _ _ => 0)

/-- The matrix-free policy evaluator: the source returns component `[0]` of
the solver's output pair, discarding the `info` component. -/
def get_value_2 [NeZero ys] [NeZero zs] (σ : Policy ys zs) (m : Model ys zs) :
    Value ys zs :=
  (get_value_2_full σ m).1

/-- Modelled from the spec: the generic fixed-point driver
`solvers.successive_approx` is repository code that is not under `src/`.  Per
the spec it applies the operator repeatedly until successive iterates are
within the tolerance in sup norm, the caller may impose a maximum-iteration
cap (the fuel argument), and the last iterate is returned on non-convergence. -/
def successive_approx [NeZero ys] [NeZero zs] (f : Value ys zs → Value ys zs)
    (tol : ℚ) : ℕ → Value ys zs → Value ys zs
  | 0, x => x
  | fuel + 1, x =>
    if supNorm (f x - x) ≤ tol then f x
    else successive_approx f tol fuel (f x)

/-- VFI: drive `T` to its fixed point from the zero value function with the
external driver, then extract the greedy policy. -/
def value_iteration [NeZero ys] [NeZero zs] (m : Model ys zs) (tol : ℚ)
    (fuel : ℕ) : Policy ys zs :=
  get_greedy (successive_approx (fun v => T v m) tol fuel (fun _ _ => 0)) m

/-- The Howard policy-iteration loop body iterated with fuel: evaluate the
current policy with `get_value_2`, improve greedily, and stop exactly when the
integer policy arrays coincide (`error = max |σ_new - σ| = 0`); `none` means
the loop was still running when the fuel ran out (the source's `while` loop
has no cap of its own). -/
def hpi_loop [NeZero ys] [NeZero zs] (m : Model ys zs) :
    ℕ → Policy ys zs → Option (Policy ys zs)
  | 0, _ => none
  | fuel + 1, σ =>
    if get_greedy (get_value_2 σ m) m = σ then some (get_greedy (get_value_2 σ m) m)
    else hpi_loop m fuel (get_greedy (get_value_2 σ m) m)

/-- HPI entry point: start from the all-zeros policy. -/
def policy_iteration [NeZero ys] [NeZero zs] (m : Model ys zs) (fuel : ℕ) :
    Option (Policy ys zs) :=
  hpi_loop m fuel (fun _ _ => 0)

/-- The OPI loop iterated with fuel: extract the greedy policy of the current
iterate, apply the matrix-free policy operator `mdepth` times, and stop when
successive outer iterates are within the tolerance in sup norm. -/
def opi_loop [NeZero ys] [NeZero zs] (m : Model ys zs) (tol : ℚ) (mdepth : ℕ) :
    ℕ → Value ys zs → Value ys zs
  | 0, v => v
  | fuel + 1, v =>
    if supNorm ((fun w => T_σ_2 w (get_greedy v m) m)^[mdepth] v - v) ≤ tol then
      (fun w => T_σ_2 w (get_greedy v m) m)^[mdepth] v
    else opi_loop m tol mdepth fuel ((fun w => T_σ_2 w (get_greedy v m) m)^[mdepth] v)

/-- OPI entry point: start from the zero value function and return the greedy
policy of the final iterate. -/
def optimistic_policy_iteration [NeZero ys] [NeZero zs] (m : Model ys zs)
    (tol : ℚ) (mdepth : ℕ) (fuel : ℕ) : Policy ys zs :=
  get_greedy (opi_loop m tol mdepth fuel (fun _ _ => 0)) m

/-- A concrete one-point model used as evaluation witness: a single state
`y = 1`, a single exogenous state `z = 1` with the trivial kernel, discount
`1/2`, and reward parameters giving `r_σ = 1`. -/
def m0 : Model 1 1 :=
  { β := 1/2, a_0 := 2, a_1 := 1, γ := 1, c := 1
    y_grid := fun _ => 1, z_grid := fun _ => 1, Q := fun _ _ => 1 }

/-- The unique policy of the one-point model. -/
def σzero : Policy 1 1 := fun _ _ => 0

/-- The zero value function of the one-point model. -/
def vzero : Value 1 1 := fun _ _ => 0

/-- Constant value functions on the one-point model. -/
def constV (q : ℚ) : Value 1 1 := fun _ _ => q

/-- A concrete two-state model whose Bellman backup is identically zero, so
that the maximum over actions is attained at both action indices (an exact
tie). -/
def m1 : Model 2 1 :=
  { β := 1/2, a_0 := 0, a_1 := 0, γ := 0, c := 0
    y_grid := fun _ => 0, z_grid := fun _ => 1, Q := fun _ _ => 1 }

/-- The zero value function of the tie model. -/
def vzero2 : Value 2 1 := fun _ _ => 0

lemma argmaxF_le {n : ℕ} [NeZero n] (f : Fin n → ℚ) (k : Fin n) :
    f k ≤ f (argmaxF f) := by
  have h := Finset.min'_mem (Finset.univ.filter fun k => ∀ kp, f kp ≤ f k)
    (by
      obtain ⟨b, _, hb⟩ := Finset.exists_max_image Finset.univ f ⟨0, Finset.mem_univ 0⟩
      exact ⟨b, Finset.mem_filter.mpr ⟨Finset.mem_univ b, fun kp => hb kp (Finset.mem_univ kp)⟩⟩)
  rw [Finset.mem_filter] at h
  exact h.2 k

lemma argmaxF_min {n : ℕ} [NeZero n] (f : Fin n → ℚ) (k : Fin n)
    (hk : ∀ kp, f kp ≤ f k) : argmaxF f ≤ k :=
  Finset.min'_le _ k (Finset.mem_filter.mpr ⟨Finset.mem_univ k, hk⟩)

lemma T_apply_greedy [NeZero ys] (v : Value ys zs) (m : Model ys zs)
    (i : Fin ys) (j : Fin zs) : T v m i j = B v m i j (get_greedy v m i j) := by
  apply le_antisymm
  · exact Finset.sup'_le _ _ fun k _ => argmaxF_le (fun k => B v m i j k) k
  · exact Finset.le_sup' _ (Finset.mem_univ _)

lemma Tσ2_apply (v : Value ys zs) (σ : Policy ys zs) (m : Model ys zs)
    (i : Fin ys) (j : Fin zs) : T_σ_2 v σ m i j = B v m i j (σ i j) := rfl

lemma Tσ2_greedy [NeZero ys] (v : Value ys zs) (m : Model ys zs) :
    T_σ_2 v (get_greedy v m) m = T v m := by
  funext i j
  rw [Tσ2_apply, T_apply_greedy]

lemma mulVec_P_apply (σ : Policy ys zs) (m : Model ys zs)
    (x : Fin ys × Fin zs → ℚ) (i : Fin ys) (j : Fin zs) :
    (P_σ σ m *ᵥ x) (i, j) = ∑ jp, m.Q j jp * x (σ i j, jp) := by
  simp only [Matrix.mulVec, Matrix.dotProduct, P_σ, Fintype.sum_prod_type]
  rw [Finset.sum_comm]
  refine Finset.sum_congr rfl fun jp _ => ?_
  rw [Finset.sum_eq_single (σ i j)]
  · simp
  · intro k _ hk
    simp [Ne.symm hk]
  · intro h
    exact absurd (Finset.mem_univ _) h

lemma Tσ_eq_Tσ2 (v : Value ys zs) (σ : Policy ys zs) (m : Model ys zs) :
    T_σ v σ m = T_σ_2 v σ m := by
  funext i j
  simp only [T_σ, T_σ_2, mulVec_P_apply, toVec]
  congr 1
  congr 1
  exact Finset.sum_congr rfl fun jp _ => mul_comm _ _

/-- C1: for every value function `v` and indices `(i, j, k)`, the Bellman
backup satisfies
`B[i,j,k] = (a0 - a1*y_i + z_j - c)*y_i - γ*(y_k - y_i)² + β * Σ_jp v[k, jp] * Q[j, jp]`,
with the continuation expectation indexed by the next endogenous state `k`
and running over exogenous transitions from `j`. -/
theorem C1_bellman_backup (v : Value ys zs) (m : Model ys zs)
    (i : Fin ys) (j : Fin zs) (k : Fin ys) :
    B v m i j k =
      (m.a_0 - m.a_1 * m.y_grid i + m.z_grid j - m.c) * m.y_grid i
        - m.γ * (m.y_grid k - m.y_grid i) ^ 2
        + m.β * ∑ jp, v k jp * m.Q j jp := rfl

/-- C2: the dense policy operator (indicator tensor, flattened `n × n` matrix)
and the matrix-free policy operator (gather and weight by the kernel row)
return the same value function, for every value function and every policy. -/
theorem C2_dense_eq_matrix_free (v : Value ys zs) (σ : Policy ys zs)
    (m : Model ys zs) : T_σ v σ m = T_σ_2 v σ m :=
  Tσ_eq_Tσ2 v σ m

/-- C10: applying the policy operator to the greedy policy of `v` reproduces
the Bellman operator, `T_σ(v, get_greedy(v)) = T(v)`, since the greedy action
attains the maximum of the Bellman backup at every `(i, j)`. -/
theorem C10_policy_operator_at_greedy [NeZero ys] (v : Value ys zs)
    (m : Model ys zs) : T_σ v (get_greedy v m) m = T v m :=
  (Tσ_eq_Tσ2 v (get_greedy v m) m).trans (Tσ2_greedy v m)

/-- Witness for C10 at a concrete model and value function. -/
theorem C10_witness : T_σ vzero (get_greedy vzero m0) m0 = T vzero m0 :=
  C10_policy_operator_at_greedy vzero m0

lemma cramerSolve_mulVec {ι : Type} [Fintype ι] [DecidableEq ι]
    (M : Matrix ι ι ℚ) (b : ι → ℚ) (hd : M.det ≠ 0) :
    M *ᵥ cramerSolve M b = b := by
  unfold cramerSolve
  rw [Matrix.mulVec_smul, Matrix.mulVec_mulVec, Matrix.mul_adjugate,
    Matrix.smul_mulVec_assoc, Matrix.one_mulVec, smul_smul,
    inv_mul_cancel₀ hd, one_smul]

lemma mulVec_cancel {ι : Type} [Fintype ι] [DecidableEq ι]
    (M : Matrix ι ι ℚ) (hd : M.det ≠ 0) {x y : ι → ℚ}
    (h : M *ᵥ x = M *ᵥ y) : x = y := by
  have h2 := congrArg (fun w => M.adjugate *ᵥ w) h
  simp only [Matrix.mulVec_mulVec, Matrix.adjugate_mul,
    Matrix.smul_mulVec_assoc, Matrix.one_mulVec] at h2
  funext p
  have h3 := congrFun h2 p
  simp only [Pi.smul_apply, smul_eq_mul] at h3
  exact mul_left_cancel₀ hd h3

lemma Tσ_fixed_iff (v : Value ys zs) (σ : Policy ys zs) (m : Model ys zs) :
    T_σ v σ m = v ↔ mat_A σ m *ᵥ toVec v = toVec (r_σ σ m) := by
  have expand : ∀ p : Fin ys × Fin zs,
      (mat_A σ m *ᵥ toVec v) p = toVec v p - m.β * (P_σ σ m *ᵥ toVec v) p := by
    intro p
    simp [mat_A, Matrix.sub_mulVec, Matrix.one_mulVec, Matrix.smul_mulVec_assoc]
  constructor
  · intro h
    funext p
    have hp := congrFun (congrFun h p.1) p.2
    simp only [T_σ] at hp
    rw [expand p]
    have : toVec v p = v p.1 p.2 := rfl
    rw [this, ← hp]
    simp [toVec, r_σ]
  · intro h
    funext i j
    have hp := congrFun h (i, j)
    rw [expand (i, j)] at hp
    simp only [T_σ]
    have hv : toVec v (i, j) = v i j := rfl
    have hr : toVec (r_σ σ m) (i, j) = r_σ σ m i j := rfl
    rw [hv, hr] at hp
    linarith [hp]

/-- C3: given an invertible system matrix, the direct policy evaluator
`get_value` returns the value function solving the flattened linear system
`(I - β P_σ) v_σ = r_σ`; equivalently `v_σ` is a fixed point of the policy
operator `T_σ`, and it is the unique such fixed point. -/
theorem C3_get_value_solves (σ : Policy ys zs) (m : Model ys zs)
    (hd : (mat_A σ m).det ≠ 0) :
    mat_A σ m *ᵥ toVec (get_value σ m) = toVec (r_σ σ m)
      ∧ T_σ (get_value σ m) σ m = get_value σ m
      ∧ ∀ w, T_σ w σ m = w → w = get_value σ m := by
  have hv : toVec (get_value σ m) = cramerSolve (mat_A σ m) (toVec (r_σ σ m)) := rfl
  have h1 : mat_A σ m *ᵥ toVec (get_value σ m) = toVec (r_σ σ m) := by
    rw [hv]
    exact cramerSolve_mulVec _ _ hd
  refine ⟨h1, (Tσ_fixed_iff _ σ m).mpr h1, fun w hw => ?_⟩
  have h2 := (Tσ_fixed_iff w σ m).mp hw
  have h3 : toVec w = toVec (get_value σ m) := mulVec_cancel _ hd (h2.trans h1.symm)
  funext i j
  exact congrFun h3 (i, j)

lemma det_m0 : (mat_A σzero m0).det ≠ 0 := by
  haveI : Subsingleton (Fin 1 × Fin 1) :=
    ⟨fun a b => Prod.ext (Subsingleton.elim _ _) (Subsingleton.elim _ _)⟩
  rw [Matrix.det_eq_elem_of_subsingleton _ (0, 0)]
  norm_num [mat_A, P_σ, σzero, m0, Matrix.sub_apply, Matrix.smul_apply, Matrix.one_apply]

/-- Witness for C3 at a concrete one-point model with invertible system
matrix. -/
theorem C3_witness :
    (mat_A σzero m0).det ≠ 0
      ∧ (mat_A σzero m0 *ᵥ toVec (get_value σzero m0) = toVec (r_σ σzero m0)
          ∧ T_σ (get_value σzero m0) σzero m0 = get_value σzero m0
          ∧ ∀ w, T_σ w σzero m0 = w → w = get_value σzero m0) :=
  ⟨det_m0, C3_get_value_solves σzero m0 det_m0⟩

/-- C4: when the maximum of the Bellman backup `B(v)[i,j,·]` is attained at
more than one action index (witnessed by two distinct maximizing indices),
`get_greedy` still attains that maximum and returns an index that is less
than or equal to every maximizing index — the first-occurrence (smallest
index) tie-break, so the output is fully determined. -/
theorem C4_greedy_tiebreak [NeZero ys] (v : Value ys zs) (m : Model ys zs)
    (i : Fin ys) (j : Fin zs) (k₁ k₂ : Fin ys) (hne : k₁ ≠ k₂)
    (h1 : ∀ k, B v m i j k ≤ B v m i j k₁)
    (h2 : ∀ k, B v m i j k ≤ B v m i j k₂) :
    (∀ k, B v m i j k ≤ B v m i j (get_greedy v m i j))
      ∧ (∀ k, (∀ kp, B v m i j kp ≤ B v m i j k) → get_greedy v m i j ≤ k)
      ∧ (get_greedy v m i j < k₁ ∨ get_greedy v m i j < k₂) := by
  have ha1 : get_greedy v m i j ≤ k₁ := argmaxF_min _ k₁ h1
  have ha2 : get_greedy v m i j ≤ k₂ := argmaxF_min _ k₂ h2
  refine ⟨fun k => argmaxF_le _ k, fun k hk => argmaxF_min _ k hk, ?_⟩
  rcases lt_or_ge k₁ k₂ with h | h
  · exact Or.inr (lt_of_le_of_lt ha1 h)
  · exact Or.inl (lt_of_le_of_lt ha2 (lt_of_le_of_ne h (Ne.symm hne)))

lemma B_m1_zero (v : Value 2 1) (hv : v = vzero2) (i : Fin 2) (j : Fin 1)
    (k : Fin 2) : B v m1 i j k = 0 := by
  subst hv
  simp [B, vzero2, m1]

/-- Witness for C4: the tie model has an exact tie in the Bellman backup
across the two action indices, and the greedy extractor selects the lower
index. -/
theorem C4_witness :
    (0 : Fin 2) ≠ 1
      ∧ ((∀ k, B vzero2 m1 0 0 k ≤ B vzero2 m1 0 0 (get_greedy vzero2 m1 0 0))
          ∧ (∀ k, (∀ kp, B vzero2 m1 0 0 kp ≤ B vzero2 m1 0 0 k) →
              get_greedy vzero2 m1 0 0 ≤ k)
          ∧ (get_greedy vzero2 m1 0 0 < 0 ∨ get_greedy vzero2 m1 0 0 < 1)) :=
  ⟨by decide,
    C4_greedy_tiebreak vzero2 m1 0 0 0 1 (by decide)
      (fun k => le_of_eq ((B_m1_zero vzero2 rfl 0 0 k).trans (B_m1_zero vzero2 rfl 0 0 0).symm))
      (fun k => le_of_eq ((B_m1_zero vzero2 rfl 0 0 k).trans (B_m1_zero vzero2 rfl 0 0 1).symm))⟩

lemma le_supNorm [NeZero ys] [NeZero zs] (v : Value ys zs) (i : Fin ys)
    (j : Fin zs) : |v i j| ≤ supNorm v :=
  Finset.le_sup' (fun p : Fin ys × Fin zs => |v p.1 p.2|) (Finset.mem_univ (i, j))

lemma supNorm_le [NeZero ys] [NeZero zs] (v : Value ys zs) (c : ℚ)
    (h : ∀ i j, |v i j| ≤ c) : supNorm v ≤ c :=
  Finset.sup'_le _ _ fun p _ => h p.1 p.2

lemma abs_sup_sub_sup_le {α : Type} (s : Finset α) (hs : s.Nonempty)
    (f g : α → ℚ) (c : ℚ) (h : ∀ a ∈ s, |f a - g a| ≤ c) :
    |s.sup' hs f - s.sup' hs g| ≤ c := by
  rw [abs_sub_le_iff]
  constructor
  · rw [sub_le_iff_le_add]
    refine Finset.sup'_le _ _ fun a ha => ?_
    have h1 := (abs_le.mp (h a ha)).2
    have h2 := Finset.le_sup' g ha
    linarith
  · rw [sub_le_iff_le_add]
    refine Finset.sup'_le _ _ fun a ha => ?_
    have h1 := (abs_le.mp (h a ha)).1
    have h2 := Finset.le_sup' f ha
    linarith

lemma B_sub_B (v1 v2 : Value ys zs) (m : Model ys zs) (i : Fin ys)
    (j : Fin zs) (k : Fin ys) :
    B v1 m i j k - B v2 m i j k = m.β * ∑ jp, (v1 k jp - v2 k jp) * m.Q j jp := by
  have h : ∑ jp, (v1 k jp - v2 k jp) * m.Q j jp
      = (∑ jp, v1 k jp * m.Q j jp) - ∑ jp, v2 k jp * m.Q j jp := by
    rw [← Finset.sum_sub_distrib]
    exact Finset.sum_congr rfl fun jp _ => by ring
  simp only [B]
  rw [h]
  ring

lemma B_diff_le [NeZero ys] [NeZero zs] (v1 v2 : Value ys zs)
    (m : Model ys zs) (hβ0 : 0 < m.β) (hQ0 : ∀ j jp, 0 ≤ m.Q j jp)
    (hQ1 : ∀ j, ∑ jp, m.Q j jp = 1) (i : Fin ys) (j : Fin zs) (k : Fin ys) :
    |B v1 m i j k - B v2 m i j k| ≤ m.β * supNorm (v1 - v2) := by
  rw [B_sub_B, abs_mul, abs_of_pos hβ0]
  refine mul_le_mul_of_nonneg_left ?_ (le_of_lt hβ0)
  calc |∑ jp, (v1 k jp - v2 k jp) * m.Q j jp|
      ≤ ∑ jp, |(v1 k jp - v2 k jp) * m.Q j jp| := Finset.abs_sum_le_sum_abs _ _
    _ = ∑ jp, |v1 k jp - v2 k jp| * m.Q j jp := by
        exact Finset.sum_congr rfl fun jp _ => by
          rw [abs_mul, abs_of_nonneg (hQ0 j jp)]
    _ ≤ ∑ jp, supNorm (v1 - v2) * m.Q j jp := by
        refine Finset.sum_le_sum fun jp _ => ?_
        refine mul_le_mul_of_nonneg_right ?_ (hQ0 j jp)
        have := le_supNorm (v1 - v2) k jp
        simpa using this
    _ = supNorm (v1 - v2) * ∑ jp, m.Q j jp := by rw [Finset.mul_sum]
    _ = supNorm (v1 - v2) := by rw [hQ1 j, mul_one]

/-- C7: the Bellman operator is a sup-norm contraction with modulus the
discount factor: for every two value functions of matching shape and a model
with discount in `(0,1)` and a row-stochastic kernel,
`‖T(v1) - T(v2)‖_∞ ≤ β * ‖v1 - v2‖_∞`. -/
theorem C7_contraction [NeZero ys] [NeZero zs] (m : Model ys zs)
    (v1 v2 : Value ys zs) (hβ0 : 0 < m.β) (hβ1 : m.β < 1)
    (hQ0 : ∀ j jp, 0 ≤ m.Q j jp) (hQ1 : ∀ j, ∑ jp, m.Q j jp = 1) :
    supNorm (T v1 m - T v2 m) ≤ m.β * supNorm (v1 - v2) := by
  refine supNorm_le _ _ fun i j => ?_
  have hp : (T v1 m - T v2 m) i j = T v1 m i j - T v2 m i j := by
    simp [Pi.sub_apply]
  rw [hp]
  simp only [T]
  exact abs_sup_sub_sup_le _ _ _ _ _
    fun k _ => B_diff_le v1 v2 m hβ0 hQ0 hQ1 i j k

/-- Witness for C7 at a concrete model and pair of value functions. -/
theorem C7_witness :
    (0 : ℚ) < m0.β ∧ m0.β < 1 ∧ (∀ j jp, 0 ≤ m0.Q j jp)
      ∧ (∀ j, ∑ jp, m0.Q j jp = 1)
      ∧ supNorm (T (constV 1) m0 - T vzero m0) ≤ m0.β * supNorm (constV 1 - vzero) := by
  refine ⟨by norm_num [m0], by norm_num [m0], fun j jp => by norm_num [m0],
    fun j => by simp [m0], ?_⟩
  exact C7_contraction m0 (constV 1) vzero (by norm_num [m0]) (by norm_num [m0])
    (fun j jp => by norm_num [m0]) (fun j => by simp [m0])

lemma opi_loop_one [NeZero ys] [NeZero zs] (m : Model ys zs) (tol : ℚ) :
    ∀ fuel (v : Value ys zs),
      opi_loop m tol 1 fuel v = successive_approx (fun w => T w m) tol fuel v := by
  intro fuel
  induction fuel with
  | zero => intro v; rfl
  | succ n ih =>
    intro v
    rw [opi_loop, successive_approx]
    simp only [Function.iterate_one, Tσ2_greedy]
    by_cases hc : supNorm (T v m - v) ≤ tol
    · rw [if_pos hc, if_pos hc]
    · rw [if_neg hc, if_neg hc, ih]

/-- C8: optimistic policy iteration with partial-evaluation depth `m = 1`
degenerates to value iteration: with the same tolerance and the same
iteration budget, both return the same policy from the zero initial value
function. -/
theorem C8_opi_one_eq_vfi [NeZero ys] [NeZero zs] (m : Model ys zs)
    (tol : ℚ) (fuel : ℕ) :
    optimistic_policy_iteration m tol 1 fuel = value_iteration m tol fuel := by
  unfold optimistic_policy_iteration value_iteration
  rw [opi_loop_one]

/-- Witness for C8 at a concrete model, tolerance and iteration budget. -/
theorem C8_witness :
    optimistic_policy_iteration m0 (1/10) 1 3 = value_iteration m0 (1/10) 3 :=
  C8_opi_one_eq_vfi m0 (1/10) 3

lemma hpi_loop_exit [NeZero ys] [NeZero zs] (m : Model ys zs) :
    ∀ fuel (σ0 σ : Policy ys zs), hpi_loop m fuel σ0 = some σ →
      get_greedy (get_value_2 σ m) m = σ := by
  intro fuel
  induction fuel with
  | zero => intro σ0 σ h; simp [hpi_loop] at h
  | succ n ih =>
    intro σ0 σ h
    rw [hpi_loop] at h
    by_cases hc : get_greedy (get_value_2 σ0 m) m = σ0
    · rw [if_pos hc] at h
      have hσ : get_greedy (get_value_2 σ0 m) m = σ := Option.some_injective _ h
      have hσ0 : σ = σ0 := hσ.symm.trans hc
      rw [hσ0]
      exact hc
    · rw [if_neg hc] at h
      exact ih _ _ h

/-- C6: the Howard policy-iteration loop of the source has exactly one exit:
whenever `policy_iteration` returns a policy within any iteration budget, that
policy is the greedy policy of its own evaluation (the loop stopped because
`error = max |σ_new - σ|` reached exact zero).  No iteration-cap exit and no
NonConverged outcome exist: exhausting the budget yields no reported result. -/
theorem C6_hpi_only_exit_is_stable [NeZero ys] [NeZero zs] (m : Model ys zs)
    (fuel : ℕ) (σ : Policy ys zs) (h : policy_iteration m fuel = some σ) :
    get_greedy (get_value_2 σ m) m = σ :=
  hpi_loop_exit m fuel _ σ h

lemma policy_iteration_m0 : policy_iteration m0 1 = some σzero := by
  unfold policy_iteration
  rw [hpi_loop]
  haveI : Subsingleton (Policy 1 1) :=
    ⟨fun a b => funext fun i => funext fun j => Subsingleton.elim _ _⟩
  have hc : get_greedy (get_value_2 (fun _ _ => 0) m0) m0 = (fun _ _ => 0) :=
    Subsingleton.elim _ _
  rw [if_pos hc, hc]
  rfl

/-- Witness for C6 at a concrete model where the loop stabilizes within the
budget. -/
theorem C6_witness :
    policy_iteration m0 1 = some σzero
      ∧ get_greedy (get_value_2 σzero m0) m0 = σzero :=
  ⟨policy_iteration_m0, C6_hpi_only_exit_is_stable m0 1 σzero policy_iteration_m0⟩

/-- C9: every policy produced at the public interface — by the greedy
extractor, by value iteration, by Howard policy iteration and by optimistic
policy iteration — has every entry a valid next-state index in
`[0, stateSize)`. -/
theorem C9_policies_valid [NeZero ys] [NeZero zs] (m : Model ys zs) :
    (∀ (v : Value ys zs) i j, ((get_greedy v m i j : Fin ys) : ℕ) < ys)
      ∧ (∀ tol fuel i j, ((value_iteration m tol fuel i j : Fin ys) : ℕ) < ys)
      ∧ (∀ fuel σ, policy_iteration m fuel = some σ →
          ∀ i j, ((σ i j : Fin ys) : ℕ) < ys)
      ∧ (∀ tol mdepth fuel i j,
          ((optimistic_policy_iteration m tol mdepth fuel i j : Fin ys) : ℕ) < ys) :=
  ⟨fun v i j => (get_greedy v m i j).isLt,
    fun tol fuel i j => (value_iteration m tol fuel i j).isLt,
    fun _ σ _ i j => (σ i j).isLt,
    fun tol mdepth fuel i j => (optimistic_policy_iteration m tol mdepth fuel i j).isLt⟩

/-- Witness for C9: a concrete run of each producer, including a terminating
Howard policy iteration. -/
theorem C9_witness :
    ((get_greedy vzero m0 0 0 : Fin 1) : ℕ) < 1
      ∧ ((value_iteration m0 (1/10) 3 0 0 : Fin 1) : ℕ) < 1
      ∧ (policy_iteration m0 1 = some σzero ∧ ((σzero 0 0 : Fin 1) : ℕ) < 1)
      ∧ ((optimistic_policy_iteration m0 (1/10) 2 3 0 0 : Fin 1) : ℕ) < 1 :=
  ⟨(C9_policies_valid m0).1 vzero 0 0,
    (C9_policies_valid m0).2.1 (1/10) 3 0 0,
    ⟨policy_iteration_m0, (C9_policies_valid m0).2.2.1 1 σzero policy_iteration_m0 0 0⟩,
    (C9_policies_valid m0).2.2.2 (1/10) 2 3 0 0⟩

lemma r_m0 : r_σ σzero m0 = constV 1 := by
  funext i j
  norm_num [r_σ, σzero, m0, constV]

lemma A_m0 (q : ℚ) : A (constV q) σzero m0 = constV (q / 2) := by
  funext i j
  simp [A, constV, σzero, m0]
  ring

lemma constV_sub (p q : ℚ) : constV p - constV q = constV (p - q) := rfl

lemma supNorm_constV (q : ℚ) : supNorm (constV q) = |q| := by
  simp [supNorm, constV]

lemma supNorm_eleven (u : Value 1 1) : supNorm u = |u 0 0| := by
  unfold supNorm
  rw [show (fun p : Fin 1 × Fin 1 => |u p.1 p.2|) = fun _ => |u 0 0| from
    funext fun p => by rw [Subsingleton.elim p.1 0, Subsingleton.elim p.2 0]]
  exact Finset.sup'_const _ _

lemma dotV_eleven (u v : Value 1 1) : dotV u v = u 0 0 * v 0 0 := by
  simp [dotV, Fintype.sum_prod_type]

lemma bicg_step1_m0 (n : ℕ) :
    bicgstabLoop (fun v => A v σzero m0) (constV 1) (1/100000) (n + 1)
      (constV 0) (constV 1) 0 0 1 1 1
      = bicgstabLoop (fun v => A v σzero m0) (constV 1) (1/100000) n
          (constV 2) (constV 0) (constV 1) (constV (1/2)) 1 2 0 := by
  rw [bicgstabLoop, if_neg (by rw [supNorm_constV]; norm_num)]
  rw [show dotV (constV 1) (constV 1) = 1 from by rw [dotV_eleven]; norm_num [constV]]
  dsimp only
  rw [show (1:ℚ) / 1 * (1 / 1) = 1 from by norm_num]
  rw [show constV 1 + (1:ℚ) • ((0 : Value 1 1) - (1:ℚ) • (0 : Value 1 1)) = constV 1 from by
    funext i j; simp [constV]]
  rw [A_m0 1]
  rw [show dotV (constV 1) (constV (1/2)) = 1/2 from by rw [dotV_eleven]; norm_num [constV]]
  rw [show (1:ℚ) / (1/2) = 2 from by norm_num]
  rw [show constV 1 - (2:ℚ) • constV (1/2) = constV 0 from by
    funext i j; simp [constV]]
  rw [show A (constV 0) σzero m0 = constV 0 from
    (A_m0 0).trans (by rw [show (0:ℚ)/2 = 0 from by norm_num])]
  rw [show dotV (constV 0) (constV 0) = (0:ℚ) from by rw [dotV_eleven]; norm_num [constV]]
  rw [show (0:ℚ) / 0 = 0 from by norm_num]
  rw [show constV 0 + (2:ℚ) • constV 1 + (0:ℚ) • constV 0 = constV 2 from by
    funext i j; simp [constV]]
  rw [show constV 0 - (0:ℚ) • constV 0 = constV 0 from by
    funext i j; simp [constV]]

lemma bicg_step2_m0 (n : ℕ) :
    bicgstabLoop (fun v => A v σzero m0) (constV 1) (1/100000) (n + 1)
      (constV 2) (constV 0) (constV 1) (constV (1/2)) 1 2 0
      = constV 2 := by
  rw [bicgstabLoop, if_pos (by rw [supNorm_constV]; norm_num)]

lemma get_value_2_m0_exact : get_value_2 σzero m0 = constV 2 := by
  have hr0 : r_σ σzero m0 - A (constV 0) σzero m0 = constV 1 := by
    rw [r_m0, A_m0, constV_sub]
    norm_num
  have hx0 : (fun (_ : Fin 1) (_ : Fin 1) => (0 : ℚ)) = constV 0 := rfl
  unfold get_value_2 get_value_2_full bicgstab
  simp only [hx0, hr0]
  rw [show (10 * (1 * 1) : ℕ) = 10 from rfl, bicg_step1_m0 9, bicg_step2_m0 8]

/-- C5 support: at the concrete input the call made by `get_value_2` returns
to the caller only the solution component of the solver output (here the
exact policy value `2 = r_σ/(1 - β)`, reached within the cap); the info
component of the pair is `none` — no convergence information and no
ConvergenceError can reach the caller, whether or not the solve converged. -/
theorem C5_info_discarded_at_input :
    get_value_2 σzero m0 = (get_value_2_full σzero m0).1
      ∧ (get_value_2_full σzero m0).2 = none
      ∧ get_value_2 σzero m0 = constV 2 :=
  ⟨rfl, rfl, get_value_2_m0_exact⟩

end InvestmentJax
